import Mathlib

/-!
# NyuziProcessor firmware: `nuengine/main.cpp`

A shallow embedding of the tile renderer's entry point:

* the tile grid constants and the index-to-origin computation of `main`;
* the two pixel shaders (`ColorShader`, `CheckerboardShader`);
* the sequential run of `main`'s loop by a single worker, with the calls it makes
  to its collaborators recorded in a trace;
* an interleaving model of `W` workers running `main`'s loop against the shared
  counter `nextTileIndex`.

C++ `int` values are integers (`Int`); the conversions to and from `unsigned int`
that the source performs are written out with `% 2^32`.
-/

namespace Nuengine

/-! ## Machine integers -/

/-- Conversion of an `int` to `unsigned int` (reduction modulo `2^32`). -/
def toU32 (i : Int) : Nat := (i % 4294967296).toNat

/-- Conversion of an `unsigned int` to `int` (two's complement). -/
def toI32 (n : Nat) : Int :=
  if n % 4294967296 < 2147483648 then ((n % 4294967296 : Nat) : Int)
  else ((n % 4294967296 : Nat) : Int) - 4294967296

/-! ## Tile grid -/

/-- Source: `const int kMaxTileIndex = (640 / 64) * ((480 / 64) + 1);` -/
def kMaxTileIndex : Int := (640 / 64) * ((480 / 64) + 1)

/-- Source: `const int kFbWidth = 640;` -/
def kFbWidth : Int := 640

/-- Source: `const int kFbHeight = 480;` -/
def kFbHeight : Int := 480

/-- Modelled from the spec: `udiv` is declared in `utils.h`, which is not part of the
sources at hand.  Main calls it as `udiv(dividend, divisor, quotient, remainder)` on
unsigned integers; the result pair is `(quotient, remainder)`, the two values the C++
function stores through its reference parameters. -/
def udiv (dividend divisor : Nat) : Nat × Nat :=
  (dividend / divisor, dividend % divisor)

/-- The tile origin computed by `main` from a claimed tile index:
```
unsigned int tileXI, tileYI;
udiv(myTileIndex, 10, tileYI, tileXI);
int tileX = tileXI * 64;
int tileY = tileYI * 64;
```
The result is `(tileX, tileY)`. -/
def tileOrigin (myTileIndex : Int) : Int × Int :=
  let qr := udiv (toU32 myTileIndex) 10
  let tileYI := qr.1
  let tileXI := qr.2
  (toI32 (tileXI * 64), toI32 (tileYI * 64))

/-- The pixel `(x, y)` lies in the 64x64 square whose origin `main` computes for
tile index `idx`: `[tileX, tileX + 64) x [tileY, tileY + 64)`. -/
def inTile (idx x y : Int) : Prop :=
  (tileOrigin idx).1 ≤ x ∧ x < (tileOrigin idx).1 + 64 ∧
  (tileOrigin idx).2 ≤ y ∧ y < (tileOrigin idx).2 + 64

instance (idx x y : Int) : Decidable (inTile idx x y) := by
  unfold inTile; infer_instance

/-! ## Pixel shaders -/

/-- A 16-lane vector register (`vecf16`, `veci16`). -/
abbrev Vec16 (α : Type) := Fin 16 → α

/-- The two parameter arrays a shader is called with:
`const vecf16 inParams[16]` and `vecf16 outParams[16]`. -/
structure ShaderBuffers (F : Type) where
  inParams : Fin 16 → Vec16 F
  outParams : Fin 16 → Vec16 F

/-- Source:
```
void ColorShader::shadePixels(const vecf16 inParams[16], vecf16 outParams[16],
	unsigned short mask)
{
	for (int i = 0; i < 3; i++)
		outParams[i] = inParams[i];
}
```
The loop runs for `i = 0, 1, 2`. -/
def ColorShader.shadePixels {F : Type} (b : ShaderBuffers F) (_mask : Nat) :
    ShaderBuffers F :=
  ([0, 1, 2] : List (Fin 16)).foldl
    (fun st i => { st with outParams := Function.update st.outParams i (st.inParams i) }) b

/-- The per-lane meaning of the compiler's vector builtins on `float` lanes.  They are
provided by the toolchain, not by this file, so the shader is stated over any
interpretation of them:
* `scale`: the lane value of `__builtin_vp_makevectorf(65535.0)`;
* `fmul`: `float` multiplication;
* `vftoi`: `__builtin_vp_vftoi`, conversion of a `float` lane to a 32-bit integer;
* `vitof`: `__builtin_vp_vitof`, conversion of a 32-bit integer lane to `float`. -/
structure VecBuiltins (F : Type) where
  scale : F
  fmul : F → F → F
  vftoi : F → Int
  vitof : Int → F

/-- Bitwise `&` on 32-bit integer lanes. -/
def and32 (a b : Int) : Int := toI32 (Nat.land (toU32 a) (toU32 b))

/-- Bitwise `^` on 32-bit integer lanes. -/
def xor32 (a b : Int) : Int := toI32 (Nat.xor (toU32 a) (toU32 b))

/-- Right shift `>>` of a signed 32-bit integer lane (arithmetic shift). -/
def sra32 (a : Int) (k : Nat) : Int := a >>> k

/-- The quantised value of a lane: `__builtin_vp_vftoi(p * __builtin_vp_makevectorf(65535.0))`. -/
def quantize {F : Type} (B : VecBuiltins F) (p : F) : Int :=
  B.vftoi (B.fmul p B.scale)

/-- One lane of
`((__builtin_vp_vftoi(p * __builtin_vp_makevectorf(65535.0))) >> __builtin_vp_makevectori(10))
   & __builtin_vp_makevectori(1)`. -/
def checkerBit {F : Type} (B : VecBuiltins F) (p : F) : Int :=
  and32 (sra32 (quantize B p) 10) 1

/-- One lane of `color = u ^ v`: the output class of the lane. -/
def checkerClass {F : Type} (B : VecBuiltins F) (pu pv : F) : Int :=
  xor32 (checkerBit B pu) (checkerBit B pv)

/-- Source:
```
void CheckerboardShader::shadePixels(const vecf16 inParams[16], vecf16 outParams[16],
	unsigned short mask)
{
	veci16 u = ((__builtin_vp_vftoi(inParams[0] * __builtin_vp_makevectorf(65535.0)))
		>> __builtin_vp_makevectori(10)) & __builtin_vp_makevectori(1);
	veci16 v = ((__builtin_vp_vftoi(inParams[1] * __builtin_vp_makevectorf(65535.0)))
		>> __builtin_vp_makevectori(10)) & __builtin_vp_makevectori(1);

	veci16 color = u ^ v;

	outParams[0] = outParams[1] = outParams[2] = __builtin_vp_vitof(color);
}
```
The chained assignment stores into `outParams[2]`, then `[1]`, then `[0]`. -/
def CheckerboardShader.shadePixels {F : Type} (B : VecBuiltins F) (b : ShaderBuffers F)
    (_mask : Nat) : ShaderBuffers F :=
  let u : Vec16 Int := fun lane => and32 (sra32 (B.vftoi (B.fmul (b.inParams 0 lane) B.scale)) 10) 1
  let v : Vec16 Int := fun lane => and32 (sra32 (B.vftoi (B.fmul (b.inParams 1 lane) B.scale)) 10) 1
  let color : Vec16 Int := fun lane => xor32 (u lane) (v lane)
  let result : Vec16 F := fun lane => B.vitof (color lane)
  { b with outParams :=
      Function.update (Function.update (Function.update b.outParams 2 result) 1 result) 0 result }

/-- An interpretation of the builtins used to evaluate the shader on examples: lanes
are rational numbers, multiplication is exact and the conversion to an integer drops
the fractional part as a C cast does. -/
def ratBuiltins : VecBuiltins Rat where
  scale := 65535
  fmul := fun a b => a * b
  vftoi := fun a => Int.tdiv a.num a.den
  vitof := fun i => (i : Rat)

/-- A parameter array whose first two vectors hold `pu` and `pv` in every lane and
whose other vectors are zero. -/
def constParams (pu pv : Rat) : Fin 16 → Vec16 Rat :=
  fun k _ => if k = 0 then pu else if k = 1 then pv else 0

/-- Example buffers: parameters `(1/128, 1/32)` in every lane, outputs cleared. -/
def exampleBuffersA : ShaderBuffers Rat := ⟨constParams (1 / 128) (1 / 32), fun _ _ => 0⟩

/-- Example buffers: parameters `(1/256, 1/40)` in every lane, outputs cleared. -/
def exampleBuffersB : ShaderBuffers Rat := ⟨constParams (1 / 256) (1 / 40), fun _ _ => 0⟩

/-- Source: `int gNumVertexParams = 2;` (the branch taken with `COLOR_SHADER` 0). -/
def gNumVertexParams : Int := 2

/-- Source: `int gNumVertices = 1;` -/
def gNumVertices : Int := 1

/-- The operations of `main`'s loop that are visible outside it, in program order.
Vertex data is identified by the index into `gVertices` it is read from. -/
inductive Call where
  /-- `__sync_fetch_and_add(&nextTileIndex, 1)` returning the pre-increment value. -/
  | fetchAndAdd (old : Int)
  /-- `interp.setUpTriangle` with the coordinates of `gVertices[v0]`, `[v1]`, `[v2]`. -/
  | setUpTriangle (v0 v1 v2 : Int)
  /-- `interp.setUpParam(param, ...)` with `params[param]` of the three vertices. -/
  | setUpParam (param : Int) (v0 v1 v2 : Int)
  /-- `rasterizer.rasterizeTriangle(&shader, tileX, tileY, ...)` for the three vertices. -/
  | rasterizeTriangle (tileX tileY : Int) (v0 v1 v2 : Int)
  /-- `renderTarget.flushTile(tileX, tileY)`. -/
  | flushTile (tileX tileY : Int)
  deriving DecidableEq, Repr

/-- The state of one worker running `main` alone. -/
structure MainState where
  /-- The global `nextTileIndex`. -/
  nextTileIndex : Int
  /-- The calls made so far. -/
  trace : List Call
  /-- The number of times the body of the `while` loop was entered. -/
  iterations : Nat
  /-- The number of times `if (myTileIndex >= kMaxTileIndex) break;` was taken. -/
  exhaustionBreaks : Nat
  deriving DecidableEq, Repr

/-- Source: `for (int param = 0; param < gNumVertexParams; param++) interp.setUpParam(...)`
for the triangle starting at `vidx`; the result is the trace with the calls appended. -/
def paramLoop (param vidx : Int) (trace : List Call) : List Call :=
  if param < gNumVertexParams then
    paramLoop (param + 1) vidx (trace ++ [Call.setUpParam param vidx (vidx + 1) (vidx + 2)])
  else trace
termination_by (gNumVertexParams - param).toNat
decreasing_by omega

/-- Source: `for (int vidx = 0; vidx < gNumVertices; vidx += 3) { ... }`: set up the
triangle `vertex[0..2] = gVertices[vidx .. vidx + 2]`, its parameters, and rasterize it
into the tile; the result is the trace with the calls appended. -/
def vertexLoop (vidx tileX tileY : Int) (trace : List Call) : List Call :=
  if vidx < gNumVertices then
    vertexLoop (vidx + 3) tileX tileY
      (paramLoop 0 vidx (trace ++ [Call.setUpTriangle vidx (vidx + 1) (vidx + 2)])
        ++ [Call.rasterizeTriangle tileX tileY vidx (vidx + 1) (vidx + 2)])
  else trace
termination_by (gNumVertices - vidx).toNat
decreasing_by omega

/-- Source: the `while (nextTileIndex < kMaxTileIndex) { ... }` loop of `main`, run by
one worker with nobody else touching `nextTileIndex`.  `ENABLE_CLEAR` is not defined,
so `clearTile` is not called.  The function is total: the loop terminates from every
state, and the result is the state in which `main` reaches `return 0;`. -/
def mainLoop (s : MainState) : MainState :=
  if s.nextTileIndex < kMaxTileIndex then
    let myTileIndex := s.nextTileIndex
    let s1 : MainState :=
      { s with nextTileIndex := s.nextTileIndex + 1
               trace := s.trace ++ [Call.fetchAndAdd myTileIndex]
               iterations := s.iterations + 1 }
    if myTileIndex ≥ kMaxTileIndex then
      { s1 with exhaustionBreaks := s1.exhaustionBreaks + 1 }
    else
      let tileX := (tileOrigin myTileIndex).1
      let tileY := (tileOrigin myTileIndex).2
      mainLoop { s1 with trace := vertexLoop 0 tileX tileY s1.trace
                                    ++ [Call.flushTile tileX tileY] }
  else s
termination_by (kMaxTileIndex - s.nextTileIndex).toNat
decreasing_by simp_wf; omega

/-- The state in which `main` starts: `int nextTileIndex = 0;`, nothing done yet. -/
def mainInit : MainState := ⟨0, [], 0, 0⟩

/-- The calls of the iteration that renders tile `k`. -/
def tileCalls (k : Nat) : List Call :=
  [Call.fetchAndAdd k,
   Call.setUpTriangle 0 1 2,
   Call.setUpParam 0 0 1 2,
   Call.setUpParam 1 0 1 2,
   Call.rasterizeTriangle ((k % 10 : Nat) * 64) ((k / 10 : Nat) * 64) 0 1 2,
   Call.flushTile ((k % 10 : Nat) * 64) ((k / 10 : Nat) * 64)]

/-- The calls of the iterations rendering tiles `lo, lo + 1, ..., lo + n - 1`. -/
def tileCallsFrom : Nat → Nat → List Call
  | _, 0 => []
  | lo, n + 1 => tileCalls lo ++ tileCallsFrom (lo + 1) n

/-! ## Workers sharing `nextTileIndex` -/

/-- Where a worker stands in `main`'s loop. -/
inductive Pc where
  /-- About to evaluate `while (nextTileIndex < kMaxTileIndex)`. -/
  | loopTest
  /-- About to execute `__sync_fetch_and_add(&nextTileIndex, 1)`. -/
  | fetchAdd
  /-- Holds `myTileIndex`, about to evaluate `if (myTileIndex >= kMaxTileIndex) break;`. -/
  | breakTest (myTileIndex : Int)
  /-- Passed the check and is rendering and flushing tile `myTileIndex`. -/
  | render (myTileIndex : Int)
  /-- Left the loop. -/
  | exited
  deriving DecidableEq, Repr

/-- The shared counter, every worker's position, and the tile indices that passed
the `myTileIndex >= kMaxTileIndex` check, in the order in which they passed. -/
structure SysState where
  nextTileIndex : Int
  pcs : List Pc
  claimed : List Int
  deriving DecidableEq, Repr

/-- One atomic step of worker `w`.  A worker that has left the loop, or an index that
names no worker, leaves the state as it is. -/
def stepWorker (s : SysState) (w : Nat) : SysState :=
  match s.pcs[w]? with
  | none => s
  | some Pc.loopTest =>
    if s.nextTileIndex < kMaxTileIndex then { s with pcs := s.pcs.set w Pc.fetchAdd }
    else { s with pcs := s.pcs.set w Pc.exited }
  | some Pc.fetchAdd =>
    { s with nextTileIndex := s.nextTileIndex + 1
             pcs := s.pcs.set w (Pc.breakTest s.nextTileIndex) }
  | some (Pc.breakTest myTileIndex) =>
    if myTileIndex ≥ kMaxTileIndex then { s with pcs := s.pcs.set w Pc.exited }
    else { s with pcs := s.pcs.set w (Pc.render myTileIndex)
                  claimed := s.claimed ++ [myTileIndex] }
  | some (Pc.render _) => { s with pcs := s.pcs.set w Pc.loopTest }
  | some Pc.exited => s

/-- The start: `int nextTileIndex = 0;` and `W` workers entering the loop. -/
def initState (W : Nat) : SysState := ⟨0, List.replicate W Pc.loopTest, []⟩

/-- The state after the workers named by `sched` have taken one step each, in that
order: an interleaving of the workers' steps. -/
def runSchedule (s : SysState) (sched : List Nat) : SysState :=
  sched.foldl stepWorker s

/-- Every worker has left the loop. -/
def allExited (s : SysState) : Prop := ∀ pc ∈ s.pcs, pc = Pc.exited

instance (s : SysState) : Decidable (allExited s) := by
  unfold allExited; infer_instance

/-- The number of workers about to execute the fetch-and-add. -/
def fetching (pcs : List Pc) : Nat := pcs.count Pc.fetchAdd

/-- A schedule in which workers 0 and 1 alternate, 165 steps each. -/
def alternating : List Nat := (List.range 330).map (fun i => i % 2)

/-- The invariant of the interleaved runs: the indices handed out by the fetch-and-add
are `0, ..., nextTileIndex - 1`, each either still held by the worker that fetched it
(before its check), or recorded in `claimed` when below the tile count, or dropped
when not; no index is in two places. -/
structure TileInv (s : SysState) : Prop where
  nonneg : 0 ≤ s.nextTileIndex
  claimed_lt : ∀ x ∈ s.claimed, 0 ≤ x ∧ x < s.nextTileIndex ∧ x < 80
  held_lt : ∀ (w : Nat) (x : Int), s.pcs[w]? = some (Pc.breakTest x) →
    0 ≤ x ∧ x < s.nextTileIndex
  claimed_nodup : s.claimed.Nodup
  held_not_claimed : ∀ (w : Nat) (x : Int), s.pcs[w]? = some (Pc.breakTest x) →
    x ∉ s.claimed
  held_unique : ∀ (w1 w2 : Nat) (x : Int), s.pcs[w1]? = some (Pc.breakTest x) →
    s.pcs[w2]? = some (Pc.breakTest x) → w1 = w2
  covered : ∀ x : Int, 0 ≤ x → x < s.nextTileIndex → x < 80 →
    x ∈ s.claimed ∨ ∃ w : Nat, s.pcs[w]? = some (Pc.breakTest x)
  exited_full : ∀ w : Nat, s.pcs[w]? = some Pc.exited → 80 ≤ s.nextTileIndex

/-! ### Tile grid lemmas -/

theorem kMaxTileIndex_eq : kMaxTileIndex = 80 := by decide

theorem tileOrigin_of_lt (i : Int) (h0 : 0 ≤ i) (h1 : i < 80) :
    tileOrigin i = ((i % 10) * 64, (i / 10) * 64) := by
  obtain ⟨n, rfl⟩ := Int.eq_ofNat_of_zero_le h0
  have hn : n < 80 := by omega
  simp only [tileOrigin, udiv, toU32, toI32]
  have e1 : (((n : Int) % 4294967296).toNat) = n := by omega
  rw [e1]
  have a1 : n % 10 * 64 % 4294967296 = n % 10 * 64 := by omega
  have a2 : n / 10 * 64 % 4294967296 = n / 10 * 64 := by omega
  rw [a1, a2]
  have b1 : n % 10 * 64 < 2147483648 := by omega
  have b2 : n / 10 * 64 < 2147483648 := by omega
  simp only [b1, b2, if_true]
  push_cast
  rfl


/-- C3. For every two distinct tile indices in `[0, kMaxTileIndex)`, the 64x64 squares
whose origins `main` computes from them share no pixel. -/
theorem tiles_disjoint (i j : Int) (hi0 : 0 ≤ i) (hi : i < kMaxTileIndex)
    (hj0 : 0 ≤ j) (hj : j < kMaxTileIndex) (hne : i ≠ j) (x y : Int) :
    ¬ (inTile i x y ∧ inTile j x y) := by
  rw [kMaxTileIndex_eq] at hi hj
  unfold inTile
  rw [tileOrigin_of_lt i hi0 hi, tileOrigin_of_lt j hj0 hj]
  simp only
  omega

theorem tiles_disjoint_witness :
    (0 : Int) ≤ 9 ∧ (9 : Int) < kMaxTileIndex ∧ (0 : Int) ≤ 10 ∧ (10 : Int) < kMaxTileIndex ∧
      ¬ (inTile 9 600 63 ∧ inTile 10 600 63) :=
  ⟨by decide, by decide, by decide, by decide,
    tiles_disjoint 9 10 (by decide) (by decide) (by decide) (by decide) (by decide) 600 63⟩

/-- C4. The tile count is `(640 / 64) * ((480 / 64) + 1) = 80`, and every pixel `(x, y)`
of the 640x480 framebuffer lies in the square of a tile index in `[0, kMaxTileIndex)`,
namely of index `(y / 64) * 10 + x / 64`; this includes the rows `448 ≤ y < 480`. -/
theorem tiles_cover (x y : Int) (hx0 : 0 ≤ x) (hx : x < kFbWidth)
    (hy0 : 0 ≤ y) (hy : y < kFbHeight) :
    kMaxTileIndex = (640 / 64) * ((480 / 64) + 1) ∧ kMaxTileIndex = 80 ∧
      ∃ i : Int, 0 ≤ i ∧ i < kMaxTileIndex ∧ i = (y / 64) * 10 + x / 64 ∧ inTile i x y := by
  have hx' : x < 640 := hx
  have hy' : y < 480 := hy
  refine ⟨rfl, kMaxTileIndex_eq, (y / 64) * 10 + x / 64, by omega, ?_, rfl, ?_⟩
  · rw [kMaxTileIndex_eq]; omega
  · unfold inTile
    rw [tileOrigin_of_lt _ (by omega) (by omega)]
    simp only
    omega

theorem tiles_cover_witness :
    (0 : Int) ≤ 639 ∧ (639 : Int) < kFbWidth ∧ (0 : Int) ≤ 479 ∧ (479 : Int) < kFbHeight ∧
      (kMaxTileIndex = (640 / 64) * ((480 / 64) + 1) ∧ kMaxTileIndex = 80 ∧
        ∃ i : Int, 0 ≤ i ∧ i < kMaxTileIndex ∧ i = ((479 : Int) / 64) * 10 + (639 : Int) / 64 ∧
          inTile i 639 479) :=
  ⟨by decide, by decide, by decide, by decide,
    tiles_cover 639 479 (by decide) (by decide) (by decide) (by decide)⟩

/-- C5. For every tile index `i` in `[0, kMaxTileIndex)`, `main` computes the origin
`((i mod 10) * 64, (i div 10) * 64)`, where `10 = 640 / 64` is the number of tile
columns; both coordinates are multiples of 64, `tileX < 640`, and the index is
recovered as `(tileY / 64) * 10 + tileX / 64`. -/
theorem tileOrigin_row_major (i : Int) (h0 : 0 ≤ i) (h1 : i < kMaxTileIndex) :
    kFbWidth / 64 = 10 ∧
      tileOrigin i = ((i % 10) * 64, (i / 10) * 64) ∧
      (tileOrigin i).1 % 64 = 0 ∧ (tileOrigin i).2 % 64 = 0 ∧
      0 ≤ (tileOrigin i).1 ∧ (tileOrigin i).1 < kFbWidth ∧
      ((tileOrigin i).2 / 64) * 10 + (tileOrigin i).1 / 64 = i := by
  rw [kMaxTileIndex_eq] at h1
  have h := tileOrigin_of_lt i h0 h1
  refine ⟨by decide, h, ?_, ?_, ?_, ?_, ?_⟩ <;> rw [h] <;> simp only [kFbWidth] <;> omega

theorem tileOrigin_row_major_witness :
    (0 : Int) ≤ 47 ∧ (47 : Int) < kMaxTileIndex ∧
      (kFbWidth / 64 = 10 ∧
        tileOrigin 47 = (((47 : Int) % 10) * 64, ((47 : Int) / 10) * 64) ∧
        (tileOrigin 47).1 % 64 = 0 ∧ (tileOrigin 47).2 % 64 = 0 ∧
        0 ≤ (tileOrigin 47).1 ∧ (tileOrigin 47).1 < kFbWidth ∧
        ((tileOrigin 47).2 / 64) * 10 + (tileOrigin 47).1 / 64 = 47) :=
  ⟨by decide, by decide, tileOrigin_row_major 47 (by decide) (by decide)⟩

/-! ### Shader lemmas -/

theorem toU32_one : toU32 1 = 1 := by decide

theorem and32_one_cases (a : Int) : and32 a 1 = 0 ∨ and32 a 1 = 1 := by
  unfold and32
  rw [toU32_one]
  have h : Nat.land (toU32 a) 1 = toU32 a % 2 := Nat.and_one_is_mod (toU32 a)
  rw [h]
  rcases Nat.mod_two_eq_zero_or_one (toU32 a) with h0 | h1
  · left; rw [h0]; decide
  · right; rw [h1]; decide

theorem xor32_bit_cases (a b : Int) (ha : a = 0 ∨ a = 1) (hb : b = 0 ∨ b = 1) :
    xor32 a b = 0 ∨ xor32 a b = 1 := by
  rcases ha with rfl | rfl <;> rcases hb with rfl | rfl <;> decide

theorem checkerClass_cases {F : Type} (B : VecBuiltins F) (pu pv : F) :
    checkerClass B pu pv = 0 ∨ checkerClass B pu pv = 1 :=
  xor32_bit_cases _ _ (and32_one_cases _) (and32_one_cases _)

theorem checkerboard_out {F : Type} (B : VecBuiltins F) (b : ShaderBuffers F) (mask : Nat)
    (lane : Fin 16) :
    (CheckerboardShader.shadePixels B b mask).outParams 0 lane
        = B.vitof (checkerClass B (b.inParams 0 lane) (b.inParams 1 lane)) ∧
      (CheckerboardShader.shadePixels B b mask).outParams 1 lane
        = B.vitof (checkerClass B (b.inParams 0 lane) (b.inParams 1 lane)) ∧
      (CheckerboardShader.shadePixels B b mask).outParams 2 lane
        = B.vitof (checkerClass B (b.inParams 0 lane) (b.inParams 1 lane)) := by
  refine ⟨?_, ?_, ?_⟩ <;>
    simp [CheckerboardShader.shadePixels, checkerClass, checkerBit, quantize, Function.update]

/-- C6. After `ColorShader::shadePixels`, whatever the mask and the prior content of
the output array, output vectors 0, 1 and 2 equal input vectors 0, 1 and 2 (as whole
vectors, hence lane for lane), output vectors 3..15 are unchanged, and the input
array is unchanged. -/
theorem colorShader_passthrough {F : Type} (b : ShaderBuffers F) (mask : Nat) :
    (ColorShader.shadePixels b mask).outParams 0 = b.inParams 0 ∧
      (ColorShader.shadePixels b mask).outParams 1 = b.inParams 1 ∧
      (ColorShader.shadePixels b mask).outParams 2 = b.inParams 2 ∧
      (∀ k : Fin 16, 3 ≤ k.val →
        (ColorShader.shadePixels b mask).outParams k = b.outParams k) ∧
      (ColorShader.shadePixels b mask).inParams = b.inParams := by
  refine ⟨?_, ?_, ?_, ?_, ?_⟩
  · simp [ColorShader.shadePixels, Function.update]
  · simp [ColorShader.shadePixels, Function.update]
  · simp [ColorShader.shadePixels, Function.update]
  · intro k hk
    have h0 : k ≠ 0 := by intro h; rw [h] at hk; simp at hk
    have h1 : k ≠ 1 := by intro h; rw [h] at hk; simp at hk
    have h2 : k ≠ 2 := by intro h; rw [h] at hk; simp at hk
    simp [ColorShader.shadePixels, Function.update, h0, h1, h2]
  · simp [ColorShader.shadePixels]

/-- C8. In `CheckerboardShader::shadePixels`, for every lane and every two calls whose
parameters 0 and 1 in that lane quantise to the same cell in both axes
(`q(u) >> 10 = q(u') >> 10` and `q(v) >> 10 = q(v') >> 10`), the output class is the
same; the class is 0 or 1, and in each call output vectors 0, 1 and 2 hold the
conversion of that class value in that lane. -/
theorem checkerboard_cell_constant {F : Type} (B : VecBuiltins F) (b b' : ShaderBuffers F)
    (mask mask' : Nat) (lane : Fin 16)
    (hu : sra32 (quantize B (b.inParams 0 lane)) 10 = sra32 (quantize B (b'.inParams 0 lane)) 10)
    (hv : sra32 (quantize B (b.inParams 1 lane)) 10 = sra32 (quantize B (b'.inParams 1 lane)) 10) :
    checkerClass B (b.inParams 0 lane) (b.inParams 1 lane)
        = checkerClass B (b'.inParams 0 lane) (b'.inParams 1 lane) ∧
      (checkerClass B (b.inParams 0 lane) (b.inParams 1 lane) = 0 ∨
        checkerClass B (b.inParams 0 lane) (b.inParams 1 lane) = 1) ∧
      ((CheckerboardShader.shadePixels B b mask).outParams 0 lane
          = B.vitof (checkerClass B (b.inParams 0 lane) (b.inParams 1 lane)) ∧
        (CheckerboardShader.shadePixels B b mask).outParams 1 lane
          = B.vitof (checkerClass B (b.inParams 0 lane) (b.inParams 1 lane)) ∧
        (CheckerboardShader.shadePixels B b mask).outParams 2 lane
          = B.vitof (checkerClass B (b.inParams 0 lane) (b.inParams 1 lane))) ∧
      ((CheckerboardShader.shadePixels B b' mask').outParams 0 lane
          = B.vitof (checkerClass B (b.inParams 0 lane) (b.inParams 1 lane)) ∧
        (CheckerboardShader.shadePixels B b' mask').outParams 1 lane
          = B.vitof (checkerClass B (b.inParams 0 lane) (b.inParams 1 lane)) ∧
        (CheckerboardShader.shadePixels B b' mask').outParams 2 lane
          = B.vitof (checkerClass B (b.inParams 0 lane) (b.inParams 1 lane))) := by
  have hc : checkerClass B (b.inParams 0 lane) (b.inParams 1 lane)
      = checkerClass B (b'.inParams 0 lane) (b'.inParams 1 lane) := by
    simp only [checkerClass, checkerBit, hu, hv]
  refine ⟨hc, checkerClass_cases B _ _, checkerboard_out B b mask lane, ?_⟩
  rw [hc]
  exact checkerboard_out B b' mask' lane

/-- C9. `CheckerboardShader::shadePixels` gives the same result under any two coverage
masks, and its output vectors 0, 1 and 2 hold in each lane a value that is a function
of that lane's values of input parameters 0 and 1 alone. -/
theorem checkerboard_mask_independent {F : Type} (B : VecBuiltins F) :
    (∀ (b : ShaderBuffers F) (m1 m2 : Nat),
        CheckerboardShader.shadePixels B b m1 = CheckerboardShader.shadePixels B b m2) ∧
      ∃ f : F → F → F, ∀ (b : ShaderBuffers F) (m : Nat) (lane : Fin 16),
        (CheckerboardShader.shadePixels B b m).outParams 0 lane
            = f (b.inParams 0 lane) (b.inParams 1 lane) ∧
          (CheckerboardShader.shadePixels B b m).outParams 1 lane
            = f (b.inParams 0 lane) (b.inParams 1 lane) ∧
          (CheckerboardShader.shadePixels B b m).outParams 2 lane
            = f (b.inParams 0 lane) (b.inParams 1 lane) :=
  ⟨fun _ _ _ => rfl, fun pu pv => B.vitof (checkerClass B pu pv),
    fun b m lane => checkerboard_out B b m lane⟩

theorem checkerboard_cell_constant_witness :
    sra32 (quantize ratBuiltins (exampleBuffersA.inParams 0 3)) 10
        = sra32 (quantize ratBuiltins (exampleBuffersB.inParams 0 3)) 10 ∧
      sra32 (quantize ratBuiltins (exampleBuffersA.inParams 1 3)) 10
        = sra32 (quantize ratBuiltins (exampleBuffersB.inParams 1 3)) 10 ∧
      checkerClass ratBuiltins (exampleBuffersA.inParams 0 3) (exampleBuffersA.inParams 1 3)
        = checkerClass ratBuiltins (exampleBuffersB.inParams 0 3) (exampleBuffersB.inParams 1 3) :=
  ⟨by with_unfolding_all rfl, by with_unfolding_all rfl,
    (checkerboard_cell_constant ratBuiltins exampleBuffersA exampleBuffersB 65535 1 3
      (by with_unfolding_all rfl) (by with_unfolding_all rfl)).1⟩

theorem paramLoop_zero (vidx : Int) (trace : List Call) :
    paramLoop 0 vidx trace
      = trace ++ [Call.setUpParam 0 vidx (vidx + 1) (vidx + 2),
                  Call.setUpParam 1 vidx (vidx + 1) (vidx + 2)] := by
  rw [paramLoop, if_pos (by decide), paramLoop, if_pos (by decide), paramLoop,
    if_neg (by decide)]
  simp

theorem vertexLoop_zero (tileX tileY : Int) (trace : List Call) :
    vertexLoop 0 tileX tileY trace
      = trace ++ [Call.setUpTriangle 0 1 2, Call.setUpParam 0 0 1 2, Call.setUpParam 1 0 1 2,
                  Call.rasterizeTriangle tileX tileY 0 1 2] := by
  rw [vertexLoop, if_pos (by decide), vertexLoop, if_neg (by decide), paramLoop_zero]
  simp

theorem mainLoop_from (n : Nat) :
    ∀ (c : Nat) (t : List Call) (it b : Nat), c + n = 80 →
      mainLoop ⟨(c : Int), t, it, b⟩ = ⟨80, t ++ tileCallsFrom c n, it + n, b⟩ := by
  induction n with
  | zero =>
    intro c t it b h
    have hc : c = 80 := by omega
    subst hc
    rw [mainLoop, if_neg (by simp [kMaxTileIndex_eq])]
    simp [tileCallsFrom]
  | succ n ih =>
    intro c t it b h
    have hlt : (c : Int) < 80 := by omega
    have h0 : (0 : Int) ≤ c := by omega
    rw [mainLoop]
    simp only [kMaxTileIndex_eq]
    rw [if_pos hlt, if_neg (by omega)]
    simp only [vertexLoop_zero, tileOrigin_of_lt _ h0 hlt]
    have e : ((c : Int) + 1) = ((c + 1 : Nat) : Int) := by push_cast; rfl
    rw [e, ih (c + 1) _ _ _ (by omega)]
    simp [tileCallsFrom, tileCalls, List.append_assoc]
    omega

theorem tileCallsFrom_eq (n : Nat) :
    ∀ lo : Nat, tileCallsFrom lo n = (List.range' lo n).flatMap tileCalls := by
  induction n with
  | zero => intro lo; simp [tileCallsFrom]
  | succ n ih => intro lo; simp [tileCallsFrom, ih, List.range'_succ]

/-- C10. One worker running `main`'s loop alone from `nextTileIndex = 0`: the loop
terminates (the function is total) having entered its body exactly 80 times; the
calls made are, for `k = 0, ..., 79` in this order, the fetch-and-add returning `k`,
one `setUpTriangle` on `gVertices[0..2]`, `setUpParam` for parameters 0 and 1, one
`rasterizeTriangle` and then one `flushTile`, both at `((k mod 10) * 64, (k div 10) * 64)`;
the final counter is 80 and the `myTileIndex >= kMaxTileIndex` branch is never taken. -/
theorem main_single_worker :
    (mainLoop mainInit).nextTileIndex = 80 ∧
      (mainLoop mainInit).iterations = 80 ∧
      (mainLoop mainInit).exhaustionBreaks = 0 ∧
      (mainLoop mainInit).trace = (List.range 80).flatMap tileCalls := by
  have h := mainLoop_from 80 0 [] 0 0 (by decide)
  have h' : mainLoop mainInit = ⟨80, [] ++ tileCallsFrom 0 80, 0 + 80, 0⟩ := h
  rw [h']
  refine ⟨rfl, rfl, rfl, ?_⟩
  simp [tileCallsFrom_eq, List.range_eq_range']

/-! ### Interleaved workers -/

theorem get_set_cases {l : List Pc} {w i : Nat} {v p : Pc}
    (h : (l.set w v)[i]? = some p) : (i = w ∧ p = v) ∨ (i ≠ w ∧ l[i]? = some p) := by
  rw [List.getElem?_set] at h
  by_cases hwi : w = i
  · subst hwi
    simp only [if_true] at h
    split_ifs at h with hlt
    left; exact ⟨rfl, (Option.some.inj h).symm⟩
  · rw [if_neg hwi] at h
    right; exact ⟨fun e => hwi e.symm, h⟩

theorem get_set_self {l : List Pc} {w : Nat} {v p : Pc} (h : l[w]? = some p) :
    (l.set w v)[w]? = some v := by
  obtain ⟨hlt, _⟩ := List.getElem?_eq_some.mp h
  simp [List.getElem?_set, hlt]

theorem get_set_other {l : List Pc} {w i : Nat} {v : Pc} (h : i ≠ w) :
    (l.set w v)[i]? = l[i]? :=
  List.getElem?_set_ne (fun e => h e.symm)

theorem tileInv_init (W : Nat) : TileInv (initState W) where
  nonneg := le_refl _
  claimed_lt := by intro x hx; simp [initState] at hx
  held_lt := by
    intro w x h
    simp only [initState, List.getElem?_replicate] at h
    split_ifs at h
    simp at h
  claimed_nodup := by simp [initState]
  held_not_claimed := by intro w x _; simp [initState]
  held_unique := by
    intro w1 w2 x h
    simp only [initState, List.getElem?_replicate] at h
    split_ifs at h
    simp at h
  covered := by intro x h0 h1; simp [initState] at h1; omega
  exited_full := by
    intro w h
    simp only [initState, List.getElem?_replicate] at h
    split_ifs at h
    simp at h

theorem tileInv_set (s : SysState) (w : Nat) (p v : Pc) (h : TileInv s)
    (hp : s.pcs[w]? = some p) (hv : ∀ x, v ≠ Pc.breakTest x)
    (hex : v = Pc.exited → 80 ≤ s.nextTileIndex)
    (hcov : ∀ x, p = Pc.breakTest x → x < 80 → x ∈ s.claimed) :
    TileInv { s with pcs := s.pcs.set w v } where
  nonneg := h.nonneg
  claimed_lt := h.claimed_lt
  held_lt := by
    intro i x hi
    rcases get_set_cases hi with ⟨_, e⟩ | ⟨_, hold⟩
    · exact absurd e.symm (hv x)
    · exact h.held_lt i x hold
  claimed_nodup := h.claimed_nodup
  held_not_claimed := by
    intro i x hi
    rcases get_set_cases hi with ⟨_, e⟩ | ⟨_, hold⟩
    · exact absurd e.symm (hv x)
    · exact h.held_not_claimed i x hold
  held_unique := by
    intro i j x hi hj
    rcases get_set_cases hi with ⟨_, e⟩ | ⟨_, hiold⟩
    · exact absurd e.symm (hv x)
    · rcases get_set_cases hj with ⟨_, e⟩ | ⟨_, hjold⟩
      · exact absurd e.symm (hv x)
      · exact h.held_unique i j x hiold hjold
  covered := by
    intro x h0 h1 h2
    rcases h.covered x h0 h1 h2 with hc | ⟨w0, hw0⟩
    · exact Or.inl hc
    · by_cases e : w0 = w
      · subst e
        rw [hp] at hw0
        exact Or.inl (hcov x (Option.some.inj hw0) h2)
      · exact Or.inr ⟨w0, by rw [get_set_other e]; exact hw0⟩
  exited_full := by
    intro i hi
    rcases get_set_cases hi with ⟨_, e⟩ | ⟨_, hold⟩
    · exact hex e.symm
    · exact h.exited_full i hold

theorem tileInv_fetch (s : SysState) (w : Nat) (h : TileInv s)
    (hp : s.pcs[w]? = some Pc.fetchAdd) :
    TileInv { s with nextTileIndex := s.nextTileIndex + 1
                     pcs := s.pcs.set w (Pc.breakTest s.nextTileIndex) } where
  nonneg := by have := h.nonneg; simp only; omega
  claimed_lt := by
    intro x hx
    have := h.claimed_lt x hx
    simp only; omega
  held_lt := by
    intro i x hi
    rcases get_set_cases hi with ⟨_, e⟩ | ⟨_, hold⟩
    · have hx : x = s.nextTileIndex := Pc.breakTest.inj e
      have := h.nonneg
      simp only; omega
    · have := h.held_lt i x hold
      simp only; omega
  claimed_nodup := h.claimed_nodup
  held_not_claimed := by
    intro i x hi
    rcases get_set_cases hi with ⟨_, e⟩ | ⟨_, hold⟩
    · have hx : x = s.nextTileIndex := Pc.breakTest.inj e
      intro hmem
      have := h.claimed_lt x hmem
      omega
    · exact h.held_not_claimed i x hold
  held_unique := by
    intro i j x hi hj
    rcases get_set_cases hi with ⟨ei, e⟩ | ⟨_, hiold⟩
    · rcases get_set_cases hj with ⟨ej, _⟩ | ⟨_, hjold⟩
      · rw [ei, ej]
      · have hx : x = s.nextTileIndex := Pc.breakTest.inj e
        have := h.held_lt j x hjold
        omega
    · rcases get_set_cases hj with ⟨_, e⟩ | ⟨_, hjold⟩
      · have hx : x = s.nextTileIndex := Pc.breakTest.inj e
        have := h.held_lt i x hiold
        omega
      · exact h.held_unique i j x hiold hjold
  covered := by
    intro x h0 h1 h2
    simp only at h1
    by_cases hx : x = s.nextTileIndex
    · subst hx
      exact Or.inr ⟨w, get_set_self hp⟩
    · rcases h.covered x h0 (by omega) h2 with hc | ⟨w0, hw0⟩
      · exact Or.inl hc
      · by_cases e : w0 = w
        · subst e
          rw [hp] at hw0
          exact absurd (Option.some.inj hw0) (by simp)
        · exact Or.inr ⟨w0, by rw [get_set_other e]; exact hw0⟩
  exited_full := by
    intro i hi
    rcases get_set_cases hi with ⟨_, e⟩ | ⟨_, hold⟩
    · exact absurd e (by simp)
    · have := h.exited_full i hold
      simp only; omega

theorem tileInv_claim (s : SysState) (w : Nat) (my : Int) (h : TileInv s)
    (hp : s.pcs[w]? = some (Pc.breakTest my)) (hmy : my < 80) :
    TileInv { s with pcs := s.pcs.set w (Pc.render my)
                     claimed := s.claimed ++ [my] } where
  nonneg := h.nonneg
  claimed_lt := by
    intro x hx
    rcases List.mem_append.mp hx with hx | hx
    · exact h.claimed_lt x hx
    · have hx' : x = my := by simpa using hx
      have := h.held_lt w my hp
      subst hx'
      exact ⟨this.1, this.2, hmy⟩
  held_lt := by
    intro i x hi
    rcases get_set_cases hi with ⟨_, e⟩ | ⟨_, hold⟩
    · exact absurd e (by simp)
    · exact h.held_lt i x hold
  claimed_nodup := by
    have hn := h.held_not_claimed w my hp
    exact List.nodup_append.mpr ⟨h.claimed_nodup, List.nodup_singleton my, by
      intro a ha hb
      have : a = my := by simpa using hb
      exact hn (this ▸ ha)⟩
  held_not_claimed := by
    intro i x hi
    rcases get_set_cases hi with ⟨_, e⟩ | ⟨hne, hold⟩
    · exact absurd e (by simp)
    · intro hmem
      rcases List.mem_append.mp hmem with hx | hx
      · exact h.held_not_claimed i x hold hx
      · have hx' : x = my := by simpa using hx
        subst hx'
        exact hne (h.held_unique i w x hold hp)
  held_unique := by
    intro i j x hi hj
    rcases get_set_cases hi with ⟨_, e⟩ | ⟨_, hiold⟩
    · exact absurd e (by simp)
    · rcases get_set_cases hj with ⟨_, e⟩ | ⟨_, hjold⟩
      · exact absurd e (by simp)
      · exact h.held_unique i j x hiold hjold
  covered := by
    intro x h0 h1 h2
    rcases h.covered x h0 h1 h2 with hc | ⟨w0, hw0⟩
    · exact Or.inl (List.mem_append.mpr (Or.inl hc))
    · by_cases e : w0 = w
      · subst e
        rw [hp] at hw0
        have hx : my = x := Pc.breakTest.inj (Option.some.inj hw0)
        exact Or.inl (List.mem_append.mpr (Or.inr (by simp [hx])))
      · exact Or.inr ⟨w0, by rw [get_set_other e]; exact hw0⟩
  exited_full := by
    intro i hi
    rcases get_set_cases hi with ⟨_, e⟩ | ⟨_, hold⟩
    · exact absurd e (by simp)
    · exact h.exited_full i hold

theorem tileInv_step (s : SysState) (w : Nat) (h : TileInv s) : TileInv (stepWorker s w) := by
  unfold stepWorker
  split
  · exact h
  · rename_i hp
    split_ifs with hc
    · exact tileInv_set s w _ _ h hp (by simp) (by simp) (by simp)
    · rw [kMaxTileIndex_eq] at hc
      exact tileInv_set s w _ _ h hp (by simp) (fun _ => by omega) (by simp)
  · rename_i hp
    exact tileInv_fetch s w h hp
  · rename_i my hp
    split_ifs with hc
    · rw [kMaxTileIndex_eq] at hc
      have hl := h.held_lt w my hp
      refine tileInv_set s w _ _ h hp (by simp) (fun _ => by omega) ?_
      intro x hx hx80
      have : my = x := Pc.breakTest.inj hx
      omega
    · rw [kMaxTileIndex_eq] at hc
      exact tileInv_claim s w my h hp (by omega)
  · rename_i my hp
    exact tileInv_set s w _ _ h hp (by simp) (by simp) (by simp)
  · exact h

theorem tileInv_run (sched : List Nat) :
    ∀ s : SysState, TileInv s → TileInv (runSchedule s sched) := by
  induction sched with
  | nil => intro s h; exact h
  | cons w rest ih => intro s h; exact ih _ (tileInv_step s w h)

theorem stepWorker_length (s : SysState) (w : Nat) :
    (stepWorker s w).pcs.length = s.pcs.length := by
  unfold stepWorker
  split <;> try split_ifs
  all_goals simp

theorem runSchedule_length (sched : List Nat) :
    ∀ s : SysState, (runSchedule s sched).pcs.length = s.pcs.length := by
  induction sched with
  | nil => intro s; rfl
  | cons w rest ih =>
    intro s
    exact (ih (stepWorker s w)).trans (stepWorker_length s w)

theorem stepWorker_mono (s : SysState) (w : Nat) :
    s.nextTileIndex ≤ (stepWorker s w).nextTileIndex := by
  unfold stepWorker
  split <;> try split_ifs
  all_goals simp

theorem runSchedule_mono (sched : List Nat) :
    ∀ s : SysState, s.nextTileIndex ≤ (runSchedule s sched).nextTileIndex := by
  induction sched with
  | nil => intro s; exact le_refl _
  | cons w rest ih =>
    intro s
    exact le_trans (stepWorker_mono s w) (ih (stepWorker s w))

theorem runSchedule_append (s : SysState) (a b : List Nat) :
    runSchedule s (a ++ b) = runSchedule (runSchedule s a) b := by
  simp [runSchedule, List.foldl_append]

theorem fetching_set (l : List Pc) (w : Nat) (p v : Pc) (hp : l[w]? = some p) :
    fetching (l.set w v) + (if p = Pc.fetchAdd then 1 else 0)
      = fetching l + (if v = Pc.fetchAdd then 1 else 0) := by
  obtain ⟨hlt, hget⟩ := List.getElem?_eq_some.mp hp
  unfold fetching
  rw [List.count_set _ _ _ _ hlt, hget]
  have hpos : p = Pc.fetchAdd → 0 < List.count Pc.fetchAdd l := by
    intro e
    rw [List.count_pos_iff]
    rw [← e, ← hget]
    exact List.getElem_mem hlt
  by_cases e1 : p = Pc.fetchAdd <;> by_cases e2 : v = Pc.fetchAdd <;>
    simp [e1, e2] <;> first | omega | (have hc := hpos e1; omega)

/-- The counter bound carried along a run: the counter plus the number of workers
between their loop test and their fetch-and-add is at most `79 + W`. -/
theorem bound_step (s : SysState) (w : Nat)
    (h : s.nextTileIndex + fetching s.pcs ≤ 79 + s.pcs.length) :
    (stepWorker s w).nextTileIndex + fetching (stepWorker s w).pcs
      ≤ 79 + (stepWorker s w).pcs.length := by
  have hlen := stepWorker_length s w
  rw [hlen]
  unfold stepWorker
  split
  · exact h
  · rename_i hp
    have hf := fetching_set s.pcs w _ Pc.fetchAdd hp
    have hf' := fetching_set s.pcs w _ Pc.exited hp
    simp at hf hf'
    split_ifs with hc
    · rw [kMaxTileIndex_eq] at hc
      have hle : fetching (s.pcs.set w Pc.fetchAdd) ≤ (s.pcs.set w Pc.fetchAdd).length :=
        List.count_le_length _ _
      rw [List.length_set] at hle
      simp only
      omega
    · simp only
      omega
  · rename_i hp
    have hf := fetching_set s.pcs w _ (Pc.breakTest s.nextTileIndex) hp
    simp at hf
    simp only
    omega
  · rename_i my hp
    have hf := fetching_set s.pcs w _ Pc.exited hp
    have hf' := fetching_set s.pcs w _ (Pc.render my) hp
    simp at hf hf'
    split_ifs with hc <;> simp only <;> omega
  · rename_i my hp
    have hf := fetching_set s.pcs w _ Pc.loopTest hp
    simp at hf
    simp only
    omega
  · exact h

theorem bound_run (sched : List Nat) :
    ∀ s : SysState, s.nextTileIndex + fetching s.pcs ≤ 79 + s.pcs.length →
      (runSchedule s sched).nextTileIndex + fetching (runSchedule s sched).pcs
        ≤ 79 + (runSchedule s sched).pcs.length := by
  induction sched with
  | nil => intro s h; exact h
  | cons w rest ih => intro s h; exact ih _ (bound_step s w h)

theorem bound_init (W : Nat) :
    (initState W).nextTileIndex + fetching (initState W).pcs
      ≤ 79 + (initState W).pcs.length := by
  have hle := List.count_le_length Pc.fetchAdd (List.replicate W Pc.loopTest)
  simp only [initState, fetching]
  omega

/-- The schedule on which the counter passes the tile count: worker 0 alone renders
tiles 0..78 and passes the loop test for counter value 79; worker 1 passes the same
test; then both execute the fetch-and-add. -/
theorem overshoot_run :
    runSchedule (initState 2) (List.replicate 317 0 ++ [1, 0, 1])
      = ⟨81, [Pc.breakTest 79, Pc.breakTest 80], (List.range 79).map Int.ofNat⟩ := by
  decide!

theorem alternating_run :
    runSchedule (initState 2) alternating
      = ⟨80, [Pc.exited, Pc.exited], (List.range 80).map Int.ofNat⟩ := by
  decide!

theorem range80_mem (x : Int) :
    x ∈ (List.range 80).map Int.ofNat ↔ 0 ≤ x ∧ x < 80 := by
  simp only [List.mem_map, List.mem_range]
  constructor
  · rintro ⟨n, hn, rfl⟩
    simp only [Int.ofNat_eq_coe]
    omega
  · rintro ⟨h0, h1⟩
    exact ⟨x.toNat, by omega, by simp only [Int.ofNat_eq_coe]; omega⟩

theorem range80_nodup : ((List.range 80).map Int.ofNat).Nodup :=
  (List.nodup_range 80).map (fun _ _ h => Int.ofNat.inj h)

/-- C1. For every number of workers `W ≥ 1` and every interleaving of their atomic
steps (loop test, fetch-and-add, exhaustion check, rendering), once all workers have
left the loop the tile indices that passed the `myTileIndex >= kMaxTileIndex` check
are exactly `0, ..., 79`, each exactly once; and in every reachable state every index
that passed the check is in `[0, kMaxTileIndex)`. -/
theorem tiles_claimed_exactly_once (W : Nat) (hW : 1 ≤ W) (sched : List Nat)
    (hdone : allExited (runSchedule (initState W) sched)) :
    (runSchedule (initState W) sched).claimed.Perm ((List.range 80).map Int.ofNat) ∧
      (runSchedule (initState W) sched).claimed.Nodup ∧
      ∀ (sched' : List Nat) (x : Int), x ∈ (runSchedule (initState W) sched').claimed →
        0 ≤ x ∧ x < kMaxTileIndex := by
  have hinv := tileInv_run sched (initState W) (tileInv_init W)
  have hlen : (runSchedule (initState W) sched).pcs.length = W := by
    rw [runSchedule_length]; simp [initState]
  have h0 : (runSchedule (initState W) sched).pcs[0]? = some Pc.exited := by
    have hlt : 0 < (runSchedule (initState W) sched).pcs.length := by omega
    rw [List.getElem?_eq_getElem hlt]
    exact congrArg some (hdone _ (List.getElem_mem hlt))
  have hfull := hinv.exited_full 0 h0
  have hnone : ∀ (w : Nat) (x : Int),
      (runSchedule (initState W) sched).pcs[w]? ≠ some (Pc.breakTest x) := by
    intro w x hw
    have hmem : Pc.breakTest x ∈ (runSchedule (initState W) sched).pcs :=
      List.mem_iff_getElem?.mpr ⟨w, hw⟩
    exact absurd (hdone _ hmem) (by simp)
  refine ⟨?_, hinv.claimed_nodup, ?_⟩
  · rw [List.perm_ext_iff_of_nodup hinv.claimed_nodup range80_nodup]
    intro x
    rw [range80_mem]
    constructor
    · intro hx
      have := hinv.claimed_lt x hx
      exact ⟨this.1, this.2.2⟩
    · rintro ⟨hx0, hx1⟩
      rcases hinv.covered x hx0 (by omega) hx1 with hc | ⟨w, hw⟩
      · exact hc
      · exact absurd hw (hnone w x)
  · intro sched' x hx
    have := (tileInv_run sched' (initState W) (tileInv_init W)).claimed_lt x hx
    rw [kMaxTileIndex_eq]
    exact ⟨this.1, this.2.2⟩

theorem tiles_claimed_exactly_once_witness :
    1 ≤ 2 ∧ allExited (runSchedule (initState 2) alternating) ∧
      (runSchedule (initState 2) alternating).claimed.Perm ((List.range 80).map Int.ofNat) :=
  ⟨by decide, by rw [alternating_run]; decide,
    (tiles_claimed_exactly_once 2 (by decide) alternating
      (by rw [alternating_run]; decide)).1⟩

/-- C2, as the code behaves. For every number of workers `W` and every interleaving,
in every reachable state `0 ≤ nextTileIndex ≤ kMaxTileIndex + W - 1`, and the counter
never decreases along the run.  For one worker the bound is `kMaxTileIndex`. -/
theorem counter_bounded (W : Nat) (sched more : List Nat) :
    0 ≤ (runSchedule (initState W) sched).nextTileIndex ∧
      (runSchedule (initState W) sched).nextTileIndex ≤ kMaxTileIndex + W - 1 ∧
      (runSchedule (initState W) sched).nextTileIndex
        ≤ (runSchedule (initState W) (sched ++ more)).nextTileIndex := by
  have hinv := tileInv_run sched (initState W) (tileInv_init W)
  have hb := bound_run sched (initState W) (bound_init W)
  have hlen : (runSchedule (initState W) sched).pcs.length = W := by
    rw [runSchedule_length]; simp [initState]
  rw [hlen] at hb
  refine ⟨hinv.nonneg, ?_, ?_⟩
  · rw [kMaxTileIndex_eq]; omega
  · rw [runSchedule_append]
    exact runSchedule_mono more _

/-- C2, counterexample. With two workers the counter reaches 81, above
`kMaxTileIndex = 80`: worker 0 renders tiles 0..78 and passes the loop test at counter
value 79, worker 1 passes the same test, and both then execute the fetch-and-add. -/
theorem counter_exceeds_tile_count :
    (runSchedule (initState 2) (List.replicate 317 0 ++ [1, 0, 1])).nextTileIndex = 81 ∧
      ¬ ((runSchedule (initState 2) (List.replicate 317 0 ++ [1, 0, 1])).nextTileIndex
          ≤ kMaxTileIndex) := by
  rw [overshoot_run]
  decide

end Nuengine
